import Mathlib

/-!
Verification of the INCAR parser of py4vasp (src/py4vasp/_control/incar.py).

The parser turns a configuration text into a flat mapping from uppercase
tag paths to string values.  It is driven by compiled regular expressions
with lookbehind-based escape detection; every pattern below is translated
into an equivalent deterministic Lean function over lists of characters.
The derivation of each matcher from the backtracking behaviour of the
corresponding Python pattern is documented at the definition.

Python's IndexError (raised by depth.pop() on an empty list) is modelled
by the Except Unit monad: .error () corresponds to the exception
propagating out of parse_incar_to_dict.
-/

namespace Incar

/-- Strings are modelled as lists of characters. -/
abbrev Str := List Char

/-- Python regex class \s: space, tab, newline, carriage return,
vertical tab, form feed.  Python's \s also matches a few non-ASCII
whitespace characters (for example U+00A0); the model treats those as
ordinary characters, a documented narrowing that no theorem below
depends on. -/
def isSpace (c : Char) : Bool :=
  c == ' ' || c == '\t' || c == '\n' || c == '\r' || c == '\x0b' || c == '\x0c'

/-- Python regex class [\w/] (source: _name, line 24): letters, digits,
underscore and the path separator slash.  The source compiles its
patterns without re.ASCII, so \w also matches every non-ASCII Unicode
word character; the model carries one such character exactly, the kra
letter U+0138 (a lowercase letter with no uppercase mapping, the witness
for claim C6), and conservatively treats the remaining non-ASCII code
points as non-word, a documented narrowing no theorem below depends on. -/
def isWordSlash (c : Char) : Bool :=
  c.isAlphanum || c == '_' || c == '/' || c == 'ĸ'

/-- Comment markers [#!] (source: _COMMENT, line 28). -/
def isCommentChar (c : Char) : Bool :=
  c == '#' || c == '!'

/-- The reserved characters of the class in _ESCAPED (line 30). -/
def isReserved (c : Char) : Bool :=
  c == '=' || c == ';' || c == '#' || c == '!' || c == '\x7b' || c == '\x7d' ||
  c == '"' || c == '\\'

/-- Character of s at index i, with a space (neither a backslash, a
delimiter nor a quote) standing for the out-of-range boundary. -/
def chAt (s : Str) (i : Nat) : Char :=
  s.getD i ' '

/-- Models _non_escaped(char) (line 26), the pattern
((?<!\bs)char|(?<=\bs\bs)char) where \bs is a backslash: the character at
index i of s is active when the previous character is not a backslash, or
when the two previous characters are both backslashes.  The lookbehind
inspects at most two characters. -/
def nonEscapedAt (s : Str) (i : Nat) : Bool :=
  (i == 0 || chAt s (i-1) != '\\') ||
  (decide (2 ≤ i) && chAt s (i-2) == '\\' && chAt s (i-1) == '\\')

/-- Length of the maximal run of backslashes immediately preceding index i
(used to state the spec's escape-parity contract, not by the code). -/
def bsRun (s : Str) : Nat → Nat
  | 0 => 0
  | i+1 => if chAt s i == '\\' then bsRun s i + 1 else 0

/-- Length of the maximal run of characters satisfying p starting at
index i (models a greedy character-class star anchored at i). -/
def runFrom (p : Char → Bool) (s : Str) (i : Nat) : Nat :=
  ((s.drop i).takeWhile p).length

/-- Greedy \s* anchored at index i. -/
def wsRun (s : Str) (i : Nat) : Nat :=
  runFrom isSpace s i

/-- Remove trailing whitespace (the backtracking of a greedy dot-star
followed by \S settles on the last non-whitespace character). -/
def trimTrail (l : Str) : Str :=
  (l.reverse.dropWhile isSpace).reverse

/-- The region a dot-star anchored at index q can span: up to the first
newline, since the dot does not match a newline. -/
def dotSeg (s : Str) (q : Nat) : Str :=
  (s.drop q).takeWhile (fun c => c != '\n')

/-- Models _value = (?P<inner>.*\S) (line 25) anchored at index q and
followed by \s* in a prefix match: the greedy capture extends to the last
non-whitespace character before the first newline; the match fails when
that region is all whitespace. -/
def valueAt (s : Str) (q : Nat) : Option Str :=
  let v := trimTrail (dotSeg s q)
  if v.isEmpty then none else some v

/-- Models _ASSIGNMENT.match (lines 33-41):
\s* (?P<tag>[\w/]+) \s* active= \s* (?P<inner>.*\S) \s*.
The whitespace and tag runs are disjoint character classes, so the
backtracking regex is equivalent to maximal munch. -/
def matchAssignment (s : Str) : Option (Str × Str) :=
  let f := wsRun s 0
  let tag := (s.drop f).takeWhile isWordSlash
  if tag.isEmpty then none else
  let p := f + tag.length + wsRun s (f + tag.length)
  if chAt s p == '=' && nonEscapedAt s p then
    let q := p + 1 + wsRun s (p + 1)
    match valueAt s q with
    | some v => some (tag, v)
    | none => none
  else none

/-- Models _OPEN.match (lines 52-60):
\s* (?P<group>[\w/]+) \s* active-openbrace \s* (?P<inner>.*\S)? \s*.
The value group is optional; when the region after the brace is all
whitespace the capture is absent (None in Python, none here). -/
def matchOpen (s : Str) : Option (Str × Option Str) :=
  let f := wsRun s 0
  let g := (s.drop f).takeWhile isWordSlash
  if g.isEmpty then none else
  let p := f + g.length + wsRun s (f + g.length)
  if chAt s p == '\x7b' && nonEscapedAt s p then
    let q := p + 1 + wsRun s (p + 1)
    some (g, valueAt s q)
  else none

/-- Backtracking search for _CLOSE.match: candidate end positions a of the
optional leading (?P<inner>.*\S), tried largest first as the greedy engine
does; a candidate succeeds when s[a-1] is not whitespace and the next
non-whitespace character after a is an active closing brace. -/
def closeScan (s : Str) (f : Nat) : Nat → Option Nat
  | 0 => none
  | a+1 =>
    if a + 1 ≤ f then none
    else if !isSpace (chAt s a) then
      let m := (a + 1) + wsRun s (a + 1)
      if chAt s m == '\x7d' && nonEscapedAt s m then some (a + 1)
      else closeScan s f a
    else closeScan s f a

/-- Models _CLOSE.match (lines 61-63):
\s* (?P<inner>.*\S)? \s* active-closebrace \s*.
The greedy engine prefers the longest inner capture whose trailing
whitespace ends at an active closing brace; when no such capture exists
the optional group is skipped and the brace must sit at the first
non-whitespace position. -/
def matchClose (s : Str) : Option (Option Str) :=
  let f := wsRun s 0
  let stop := f + (dotSeg s f).length
  match closeScan s f stop with
  | some a => some (some ((s.drop f).take (a - f)))
  | none =>
    if chAt s f == '\x7d' && nonEscapedAt s f then some none else none

/-- Models _non_quote = (?P<inner>(\bs"|[^"])*) (line 27), greedy with the
escaped-quote alternative preferred: consume a backslash-quote pair, else
any single character other than a quote. -/
def nonQuoteRun : Str → Str
  | '\\' :: '"' :: rest => '\\' :: '"' :: nonQuoteRun rest
  | c :: rest => if c == '"' then [] else c :: nonQuoteRun rest
  | [] => []

/-- Models _BEGIN_MULTILINE.match (lines 42-50):
\s* (?P<tag>[\w/]+) \s* active= \s* active-quote non_quote.
The capture is everything the greedy non_quote star consumes after the
opening quote; a closing quote on the same line is not consumed. -/
def matchBegin (s : Str) : Option (Str × Str) :=
  let f := wsRun s 0
  let tag := (s.drop f).takeWhile isWordSlash
  if tag.isEmpty then none else
  let p := f + tag.length + wsRun s (f + tag.length)
  if chAt s p == '=' && nonEscapedAt s p then
    let r := p + 1 + wsRun s (p + 1)
    if chAt s r == '"' && nonEscapedAt s r then
      some (tag, nonQuoteRun (s.drop (r + 1)))
    else none
  else none

/-- A quote not immediately preceded by a backslash (such a quote cannot
be consumed by the non_quote star, and the lookbehind accepts it). -/
def bareAt (s : Str) (q : Nat) : Bool :=
  chAt s q == '"' && (q == 0 || chAt s (q-1) != '\\')

/-- A quote the _non_escaped lookbehind accepts. -/
def activeQuoteAt (s : Str) (q : Nat) : Bool :=
  chAt s q == '"' && nonEscapedAt s q

/-- First index at or beyond i of a bare quote; fuel counts down from
s.length. -/
def fbAux (s : Str) : Nat → Nat → Option Nat
  | 0, _ => none
  | fuel+1, i =>
    if bareAt s i then some i
    else fbAux s fuel (i+1)

/-- First index of a quote not immediately preceded by a backslash. -/
def findBareQuote (s : Str) : Option Nat :=
  fbAux s s.length 0

/-- Largest index below the fuel bound holding a quote accepted by the
_non_escaped lookbehind. -/
def laAux (s : Str) : Nat → Option Nat
  | 0 => none
  | i+1 =>
    if activeQuoteAt s i then some i
    else laAux s i

/-- Largest index of an active quote. -/
def lastActiveQuote (s : Str) : Option Nat :=
  laAux s s.length

/-- Models _END_MULTILINE.match (line 51): non_quote active-quote \s*.
The star can end exactly at positions where every earlier quote is
backslash-preceded; the greedy engine settles on the largest such position
holding an active quote.  When some quote is not backslash-preceded, the
first such quote is that largest candidate; otherwise it is the largest
active (double-backslash-preceded) quote.  The match is a prefix match:
anything after the chosen quote is ignored. -/
def matchEnd (s : Str) : Option Str :=
  match findBareQuote s with
  | some q => some (s.take q)
  | none =>
    match lastActiveQuote s with
    | some q => some (s.take q)
    | none => none

/-- Models _ESCAPED.sub (lines 30, 130-131): replace every backslash
followed by a reserved character with that character alone, scanning left
to right without overlap. -/
def removeEscape : Str → Str
  | '\\' :: c :: rest =>
    if isReserved c then c :: removeEscape rest
    else '\\' :: removeEscape (c :: rest)
  | c :: rest => c :: removeEscape rest
  | [] => []

/-- A string contains an escape sequence when some backslash is
immediately followed by a reserved character (the redex of _ESCAPED). -/
def hasEscSeq : Str → Bool
  | [] => false
  | [_] => false
  | a :: b :: rest => (a == '\\' && isReserved b) || hasEscSeq (b :: rest)

/-- Models _Parser.tagname (lines 127-128): group + "/" + tag, strip all
leading slashes, uppercase.  str.upper is modelled by Char.toUpper,
which uppercases exactly the ASCII letters and leaves every other
character unchanged; this is exact on the repertoire the theorems below
use (ASCII plus U+0138, which has no uppercase mapping) and a documented
narrowing for cased non-ASCII letters, which no theorem depends on. -/
def tagname (group : Str) (tag : Str) : Str :=
  ((group ++ '/' :: tag).dropWhile (fun c => c == '/')).map Char.toUpper

/-- Models str.rpartition("/") followed by taking the part before the
separator (line 121): everything before the last slash, or the empty
string when there is no slash. -/
def rpartitionBefore (g : Str) : Str :=
  ((g.reverse.dropWhile (fun c => c != '/')).drop 1).reverse

/-- The pop loop of parse_definition (lines 119-121): apply
rpartitionBefore depth times. -/
def popSegments : Nat → Str → Str
  | 0, g => g
  | n+1, g => popSegments n (rpartitionBefore g)

/-- Models "\n".join (line 90). -/
def joinLines : List Str → Str
  | [] => []
  | [l] => l
  | l :: ls => l ++ '\n' :: joinLines ls

/-- Mutable state of _Parser (lines 79-84).  The Python depth list is a
stack with push/pop at the end; it is modelled with push/pop at the head. -/
structure ParserState where
  group : Str := []
  depth : List Nat := []
  multiline : Str := []
  content : List Str := []
  deriving DecidableEq

/-- Models _Parser.parse_multiline (lines 86-94). -/
def parseMultiline (st : ParserState) (line : Str) : ParserState × List (Str × Str) :=
  match matchEnd line with
  | some inner =>
    ({ st with multiline := [], content := [] },
     [(st.multiline, removeEscape (joinLines (st.content ++ [inner])))])
  | none => ({ st with content := st.content ++ [line] }, [])

/-- Models _Parser.parse_definition (lines 107-125), with fuel for the
recursion on captured inner fragments (each strictly shorter than its
statement, so fuel = length + 1 always suffices; see parseDefinition).
The close branch parses a leading inner fragment under the still-open
path, then pops; popping an empty depth stack is Python's IndexError,
modelled as .error (). -/
def parseDefinitionAux : Nat → ParserState → Str → Except Unit (ParserState × List (Str × Str))
  | 0, st, _ => .ok (st, [])
  | fuel+1, st, s =>
    match matchOpen s with
    | some (g, some inner) =>
      parseDefinitionAux fuel
        { st with group := st.group ++ '/' :: g,
                  depth := (g.count '/' + 1) :: st.depth } inner
    | some (g, none) =>
      .ok ({ st with group := st.group ++ '/' :: g,
                     depth := (g.count '/' + 1) :: st.depth }, [])
    | none =>
      match matchClose s with
      | some (some inner) =>
        match parseDefinitionAux fuel st inner with
        | .error e => .error e
        | .ok (st2, ps) =>
          match st2.depth with
          | [] => .error ()
          | d :: rest =>
            .ok ({ st2 with group := popSegments d st2.group, depth := rest }, ps)
      | some none =>
        match st.depth with
        | [] => .error ()
        | d :: rest =>
          .ok ({ st with group := popSegments d st.group, depth := rest }, [])
      | none =>
        match matchAssignment s with
        | some (tag, v) => .ok (st, [(tagname st.group tag, removeEscape v)])
        | none => .ok (st, [])

/-- parse_definition with always-sufficient fuel. -/
def parseDefinition (st : ParserState) (s : Str) : Except Unit (ParserState × List (Str × Str)) :=
  parseDefinitionAux (s.length + 1) st s

/-- Sequential processing of the statements of one line (the for loop of
parse_line, lines 104-105), threading state left to right. -/
def processDefs : ParserState → List Str → Except Unit (ParserState × List (Str × Str))
  | st, [] => .ok (st, [])
  | st, d :: ds =>
    match parseDefinition st d with
    | .error e => .error e
    | .ok (st1, ps) =>
      match processDefs st1 ds with
      | .error e => .error e
      | .ok (st2, ps') => .ok (st2, ps ++ ps')

/-- Scan for the first active comment character, carrying the two
previously scanned characters for the lookbehind (boundary characters
default to a space, which is not a backslash). Models
_COMMENT.split(line, maxsplit=1) followed by keeping the first part
(line 103). -/
def stripCommentAux (acc : Str) (p2 p1 : Char) : Str → Str
  | [] => acc.reverse
  | c :: rest =>
    if isCommentChar c && (p1 != '\\' || p2 == '\\') then acc.reverse
    else stripCommentAux (c :: acc) p1 c rest

/-- Truncate a line at the first active comment marker. -/
def stripComment (s : Str) : Str :=
  stripCommentAux [] ' ' ' ' s

/-- Models _INLINE.split (line 104): split on every active semicolon.
The pattern's capture group makes re.split also return each separator, so
the separator strings appear in the output list. -/
def splitInlineAux (cur : Str) (p2 p1 : Char) : Str → List Str
  | [] => [cur.reverse]
  | c :: rest =>
    if c == ';' && (p1 != '\\' || p2 == '\\') then
      cur.reverse :: [';'] :: splitInlineAux [] p1 c rest
    else splitInlineAux (c :: cur) p1 c rest

/-- Split a comment-stripped line into statements on active semicolons. -/
def splitInline (s : Str) : List Str :=
  splitInlineAux [] ' ' ' ' s

/-- Models _NEWLINES.split (lines 31, 72): split on (?<!\bs)\r?\n, that
is on \r\n whose \r is not backslash-preceded, else on \n not
backslash-preceded. -/
def splitNewlinesAux (cur : Str) (prev : Char) : Str → List Str
  | [] => [cur.reverse]
  | '\r' :: '\n' :: rest =>
    if prev != '\\' then cur.reverse :: splitNewlinesAux [] '\n' rest
    else splitNewlinesAux ('\r' :: cur) '\r' ('\n' :: rest)
  | '\n' :: rest =>
    if prev != '\\' then cur.reverse :: splitNewlinesAux [] '\n' rest
    else splitNewlinesAux ('\n' :: cur) '\n' rest
  | c :: rest => splitNewlinesAux (c :: cur) c rest

/-- Split the input text into lines. -/
def splitNewlines (s : Str) : List Str :=
  splitNewlinesAux [] ' ' s

/-- Length matched by _ESCAPED_NEWLINE (line 32), \s* \bs \r? \n \s*, at
the start of l: the greedy leading \s* must end exactly at the backslash
since a backslash is not whitespace. -/
def escNlLen (l : Str) : Option Nat :=
  let w1 := (l.takeWhile isSpace).length
  match l.drop w1 with
  | '\\' :: '\n' :: rest => some (w1 + 2 + (rest.takeWhile isSpace).length)
  | '\\' :: '\r' :: '\n' :: rest => some (w1 + 3 + (rest.takeWhile isSpace).length)
  | _ => none

/-- Models _ESCAPED_NEWLINE.sub(" ", line) (line 102): replace each
non-overlapping leftmost match by one space.  Fuel counts down at least
one character per step, so fuel = length suffices. -/
def escNewlineSubAux : Nat → Str → Str
  | 0, l => l
  | _+1, [] => []
  | fuel+1, c :: cs =>
    match escNlLen (c :: cs) with
    | some k => ' ' :: escNewlineSubAux fuel ((c :: cs).drop k)
    | none => c :: escNewlineSubAux fuel cs

/-- Collapse escaped line continuations into single spaces. -/
def escNewlineSub (l : Str) : Str :=
  escNewlineSubAux l.length l

/-- Models _Parser.parse_line (lines 96-105): the begin-multiline pattern
is tried against the whole raw line first; only when it fails is the line
continuation-collapsed, comment-stripped and split into statements. -/
def parseLine (st : ParserState) (line : Str) : Except Unit (ParserState × List (Str × Str)) :=
  match matchBegin line with
  | some (tag, inner) =>
    .ok (parseMultiline { st with multiline := tagname st.group tag } inner)
  | none =>
    processDefs st (splitInline (stripComment (escNewlineSub line)))

/-- The routing of one line (lines 73-76): a line is fed to
parse_multiline exactly when the pending multiline tag is a nonempty
string (Python truthiness of parser.multiline), else to parse_line. -/
def routeLine (st : ParserState) (l : Str) : Except Unit (ParserState × List (Str × Str)) :=
  if st.multiline.isEmpty then parseLine st l else .ok (parseMultiline st l)

/-- Models the loop of _generate_tags (lines 70-76). -/
def processLines : ParserState → List Str → Except Unit (ParserState × List (Str × Str))
  | st, [] => .ok (st, [])
  | st, l :: ls =>
    match routeLine st l with
    | .error e => .error e
    | .ok (st1, ps) =>
      match processLines st1 ls with
      | .error e => .error e
      | .ok (st2, ps') => .ok (st2, ps ++ ps')

/-- Models _generate_tags (lines 70-76): fresh parser state, then the
line loop. -/
def generateTags (text : Str) : Except Unit (ParserState × List (Str × Str)) :=
  processLines {} (splitNewlines text)

/-- Python dict insertion: an existing key keeps its position and gets the
new value, a new key is appended. -/
def dictInsert : List (Str × Str) → (Str × Str) → List (Str × Str)
  | [], p => [p]
  | q :: qs, p => if q.1 = p.1 then (q.1, p.2) :: qs else q :: dictInsert qs p

/-- Models dict(...) over the generated pairs: last write wins. -/
def toDict (ps : List (Str × Str)) : List (Str × Str) :=
  ps.foldl dictInsert []

/-- Models parse_incar_to_dict (lines 66-67). -/
def parseIncarToDict (text : Str) : Except Unit (List (Str × Str)) :=
  (generateTags text).map (fun r => toDict r.2)

/-! Basic lemmas about the matchers. -/

theorem chAt_lt_length {s : Str} {i : Nat} {c : Char} (h : chAt s i = c)
    (hc : c ≠ ' ') : i < s.length := by
  by_contra hge
  rw [chAt, List.getD_eq_getElem?_getD, List.getElem?_eq_none (Nat.le_of_not_lt hge)] at h
  exact hc h.symm

theorem trimTrail_length_le (l : Str) : (trimTrail l).length ≤ l.length := by
  have h1 : (l.reverse.dropWhile isSpace).length ≤ l.reverse.length :=
    (List.dropWhile_sublist isSpace).length_le
  simpa [trimTrail] using h1

theorem dotSeg_length_le (s : Str) (q : Nat) : (dotSeg s q).length ≤ s.length - q := by
  have h1 : ((s.drop q).takeWhile (fun c => c != '\n')).length ≤ (s.drop q).length :=
    (List.takeWhile_sublist _).length_le
  simpa [dotSeg] using h1

theorem valueAt_length {s : Str} {q : Nat} {v : Str} (h : valueAt s q = some v) :
    v.length ≤ s.length - q := by
  unfold valueAt at h
  by_cases he : (trimTrail (dotSeg s q)).isEmpty <;> simp [he] at h
  exact h ▸ Nat.le_trans (trimTrail_length_le _) (dotSeg_length_le s q)

theorem matchOpen_inner_length {s : Str} {g inner : Str}
    (h : matchOpen s = some (g, some inner)) : inner.length < s.length := by
  simp only [matchOpen] at h
  split at h
  · exact absurd h (by simp)
  · split at h
    case isTrue hbr =>
      simp only [Option.some.injEq, Prod.mk.injEq] at h
      obtain ⟨-, h2⟩ := h
      have hpl := chAt_lt_length (beq_iff_eq.mp (Bool.and_elim_left hbr)) (by decide)
      have hv := valueAt_length h2
      omega
    case isFalse => exact absurd h (by simp)

theorem closeScan_spec {s : Str} {f : Nat} :
    ∀ {k r : Nat}, closeScan s f k = some r →
      chAt s (r + wsRun s r) = '\x7d' := by
  intro k
  induction k with
  | zero => intro r h; simp [closeScan] at h
  | succ a ih =>
    intro r h
    unfold closeScan at h
    by_cases h1 : a + 1 ≤ f
    · simp [h1] at h
    · rw [if_neg h1] at h
      by_cases h2 : (!isSpace (chAt s a)) = true
      · rw [if_pos h2] at h
        by_cases h3 : (chAt s (a + 1 + wsRun s (a+1)) == '\x7d' &&
            nonEscapedAt s (a + 1 + wsRun s (a+1))) = true
        · rw [if_pos h3] at h
          cases h
          exact beq_iff_eq.mp (Bool.and_elim_left h3)
        · rw [if_neg h3] at h; exact ih h
      · rw [if_neg h2] at h; exact ih h

theorem matchClose_inner_length {s : Str} {inner : Str}
    (h : matchClose s = some (some inner)) : inner.length < s.length := by
  simp only [matchClose] at h
  split at h
  case h_1 r hcs =>
    simp only [Option.some.injEq] at h
    subst h
    have hm : chAt s (r + wsRun s r) = '\x7d' := closeScan_spec hcs
    have hml : r + wsRun s r < s.length := chAt_lt_length hm (by decide)
    have htk : ((s.drop (wsRun s 0)).take (r - wsRun s 0)).length ≤ r - wsRun s 0 :=
      List.length_take_le _ _
    omega
  case h_2 =>
    split at h <;> exact absurd h (by simp)

/-! Fuel irrelevance for parse_definition. -/

theorem pdAux_eq_pd : ∀ (fuel : Nat) (st : ParserState) (s : Str),
    s.length < fuel → parseDefinitionAux fuel st s = parseDefinition st s := by
  intro fuel
  induction fuel using Nat.strong_induction_on with
  | _ fuel ih =>
    intro st s hlt
    match fuel, hlt with
    | f + 1, hlt =>
      show parseDefinitionAux (f+1) st s = parseDefinitionAux (s.length + 1) st s
      cases hO : matchOpen s with
      | some go =>
        obtain ⟨g, io⟩ := go
        cases io with
        | some inner =>
          have hil : inner.length < s.length := matchOpen_inner_length hO
          simp only [parseDefinitionAux, hO]
          rw [ih f (Nat.lt_succ_self f) _ _ (by omega),
              ih s.length (by omega) _ _ hil]
        | none => simp only [parseDefinitionAux, hO]
      | none =>
        cases hC : matchClose s with
        | some io =>
          cases io with
          | some inner =>
            have hil : inner.length < s.length := matchClose_inner_length hC
            simp only [parseDefinitionAux, hO, hC]
            rw [ih f (Nat.lt_succ_self f) _ _ (by omega),
                ih s.length (by omega) _ _ hil]
          | none => simp only [parseDefinitionAux, hO, hC]
        | none => simp only [parseDefinitionAux, hO, hC]

/-! One-step equations for parseDefinition. -/

theorem pd_push {st : ParserState} {s g : Str} {io : Option Str}
    (hO : matchOpen s = some (g, io)) :
    parseDefinition st s =
      (match io with
       | some inner =>
         parseDefinition { st with group := st.group ++ '/' :: g,
                                   depth := (g.count '/' + 1) :: st.depth } inner
       | none =>
         .ok ({ st with group := st.group ++ '/' :: g,
                        depth := (g.count '/' + 1) :: st.depth }, [])) := by
  cases io with
  | some inner =>
    have hil : inner.length < s.length := matchOpen_inner_length hO
    simp only [parseDefinition, parseDefinitionAux, hO]
    exact pdAux_eq_pd s.length _ inner hil
  | none => simp only [parseDefinition, parseDefinitionAux, hO]

theorem pd_close {st : ParserState} {s : Str} {io : Option Str}
    (hO : matchOpen s = none) (hC : matchClose s = some io) :
    parseDefinition st s =
      (match (match io with
              | some inner => parseDefinition st inner
              | none => .ok (st, [])) with
       | .error e => .error e
       | .ok (st2, ps) =>
         match st2.depth with
         | [] => .error ()
         | d :: rest =>
           .ok ({ st2 with group := popSegments d st2.group, depth := rest }, ps)) := by
  cases io with
  | some inner =>
    have hil : inner.length < s.length := matchClose_inner_length hC
    simp only [parseDefinition, parseDefinitionAux, hO, hC,
        pdAux_eq_pd s.length _ inner hil]
  | none =>
    simp only [parseDefinition, parseDefinitionAux, hO, hC]

theorem pd_assign {st : ParserState} {s tag v : Str}
    (hO : matchOpen s = none) (hC : matchClose s = none)
    (hA : matchAssignment s = some (tag, v)) :
    parseDefinition st s = .ok (st, [(tagname st.group tag, removeEscape v)]) := by
  simp only [parseDefinition, parseDefinitionAux, hO, hC, hA]

theorem pd_skip {st : ParserState} {s : Str}
    (hO : matchOpen s = none) (hC : matchClose s = none)
    (hA : matchAssignment s = none) :
    parseDefinition st s = .ok (st, []) := by
  simp only [parseDefinition, parseDefinitionAux, hO, hC, hA]

/-! Validation of the embedding: the parametrized cases of
tests/control/test_incar.py, reproduced as definitional equalities. -/

example : parseIncarToDict "# empty file".toList = .ok [] := rfl

example : parseIncarToDict "tag1 = value1 \n tag2 = value2".toList =
    .ok [("TAG1".toList, "value1".toList), ("TAG2".toList, "value2".toList)] := rfl

example : parseIncarToDict "first=1;second=2".toList =
    .ok [("FIRST".toList, "1".toList), ("SECOND".toList, "2".toList)] := rfl

example : parseIncarToDict "first = present # ; commented = out".toList =
    .ok [("FIRST".toList, "present".toList)] := rfl

example : parseIncarToDict "comment # = in middle ; of = line".toList = .ok [] := rfl

example : parseIncarToDict "nested/tag=set inline".toList =
    .ok [("NESTED/TAG".toList, "set inline".toList)] := rfl

example :
    parseIncarToDict "open/two \x7b levels = at; the = same time \x7d\n closed = again".toList =
    .ok [("OPEN/TWO/LEVELS".toList, "at".toList),
         ("OPEN/TWO/THE".toList, "same time".toList),
         ("CLOSED".toList, "again".toList)] := rfl

example : parseIncarToDict "escape1 = assignment \\= character".toList =
    .ok [("ESCAPE1".toList, "assignment = character".toList)] := rfl

example : parseIncarToDict "escape4 = bash \\# and \\! fortran comment".toList =
    .ok [("ESCAPE4".toList, "bash # and ! fortran comment".toList)] := rfl

example : parseIncarToDict "x = \"line1\nhas # not a comment\nline2\"".toList =
    .ok [("X".toList, "line1\nhas # not a comment\nline2".toList)] := rfl

example : parseIncarToDict "x=1\nx=2".toList = .ok [("X".toList, "2".toList)] := rfl

example : parseIncarToDict "line = continuation\\\ncharacter".toList =
    .ok [("LINE".toList, "continuation character".toList)] := rfl

/-! Claim C1. -/

/-- C1: the claim states that parse_incar_to_dict never raises and that a
closing brace with no corresponding open is ignored as a no-op.  The code
instead executes depth.pop() on the empty depth list (incar.py line 119),
raising IndexError; on the one-character input consisting of a closing
brace the parse is an error, not a mapping. -/
theorem claim1_spurious_close_raises :
    parseIncarToDict "\x7d".toList = .error () ∧
    matchClose "\x7d".toList = some none ∧
    parseIncarToDict "x = 1\n\x7d".toList = .error () :=
  ⟨rfl, rfl, rfl⟩

/-! Claim C2. -/

/-- C2 counterexample: a comment marker preceded by a run of exactly three
backslashes (an odd number, hence escaped according to the claimed parity
contract) is nevertheless treated as an active delimiter, because the
lookbehind of _non_escaped inspects at most two characters: the comment is
stripped at that hash. -/
theorem claim2_parity_counterexample :
    bsRun "\\\\\\#".toList 3 = 3 ∧
    nonEscapedAt "\\\\\\#".toList 3 = true ∧
    stripComment "x = a\\\\\\#b".toList = "x = a\\\\\\".toList ∧
    parseIncarToDict "x = a\\\\\\#b".toList =
      .ok [("X".toList, "a\\\\".toList)] :=
  ⟨rfl, rfl, rfl, rfl⟩

/-- C2 (amended): for a reserved character preceded by a run of exactly k
backslashes, the parser treats the character as escaped precisely when
k = 1, and as active when k = 0 or k is at least 2 (the two-character
lookbehind cannot distinguish longer runs). -/
theorem claim2_escape_active_iff_run_ne_one :
    ∀ (s : Str) (i : Nat), nonEscapedAt s i = (bsRun s i != 1) := by
  intro s i
  match i with
  | 0 => rfl
  | 1 =>
    by_cases h0 : chAt s 0 = '\\' <;>
      simp [nonEscapedAt, bsRun, h0]
  | n+2 =>
    by_cases h1 : chAt s (n+1) = '\\' <;>
      by_cases h0 : chAt s n = '\\' <;>
      simp [nonEscapedAt, bsRun, h1, h0]

/-! Claim C3. -/

/-- C3 counterexample: escape resolution is not idempotent on its own
outputs.  Resolving a backslash-backslash-backslash-equals input collapses
the double backslash and then the backslash-equals, producing
backslash-equals, which a second resolution collapses further. -/
theorem claim3_idempotence_counterexample :
    removeEscape "\\\\\\=".toList = "\\=".toList ∧
    removeEscape (removeEscape "\\\\\\=".toList) ≠ removeEscape "\\\\\\=".toList := by
  refine ⟨rfl, ?_⟩
  decide

/-- C3 (amended): escape resolution is the identity on every string in
which no backslash is immediately followed by a reserved character; it
need not be idempotent on its own outputs, since resolving can create new
backslash-reserved adjacencies. -/
theorem removeEscape_singleton (c : Char) : removeEscape [c] = [c] := by
  rw [removeEscape.eq_def]
  split
  · rename_i heq
    exact absurd heq (by simp)
  · rename_i c' rest heq
    injection heq with hc' hrest
    rw [← hc', ← hrest]
    rfl
  · rename_i heq
    exact absurd heq (by simp)

theorem removeEscape_cons_ne {c : Char} (hc : c ≠ '\\') (l : Str) :
    removeEscape (c :: l) = c :: removeEscape l := by
  cases l with
  | nil => exact removeEscape_singleton c
  | cons d ds =>
    rw [removeEscape.eq_def]
    split
    · rename_i heq
      injection heq with h1 h2
      exact absurd h1 hc
    · rename_i c' rest heq
      injection heq with hc' hrest
      rw [hc', hrest]
    · rename_i heq
      exact absurd heq (by simp)

theorem claim3_resolve_noop_without_escapes :
    ∀ (l : Str), hasEscSeq l = false → removeEscape l = l := by
  intro l
  induction l with
  | nil => intro _; rfl
  | cons c cs ih =>
    intro h
    cases cs with
    | nil => exact removeEscape_singleton c
    | cons d ds =>
      rw [hasEscSeq] at h
      simp only [Bool.or_eq_false_iff, Bool.and_eq_false_iff] at h
      obtain ⟨h1, h2⟩ := h
      by_cases hc : c = '\\'
      · subst hc
        have hd : isReserved d = false := by
          rcases h1 with h1 | h1
          · simp at h1
          · exact h1
        rw [removeEscape, if_neg (by simp [hd])]
        rw [ih h2]
      · rw [removeEscape_cons_ne hc, ih h2]

/-- C3 witness: the amended theorem applied to a concrete escape-free
string. -/
theorem claim3_resolve_noop_witness :
    hasEscSeq "abc".toList = false ∧ removeEscape "abc".toList = "abc".toList :=
  ⟨by decide, claim3_resolve_noop_without_escapes "abc".toList (by decide)⟩

/-! Claim C4. -/

theorem processDefs_append {ds1 ds2 : List Str} : ∀ {st st1 st2 : ParserState}
    {ps1 ps2 : List (Str × Str)},
    processDefs st ds1 = .ok (st1, ps1) → processDefs st1 ds2 = .ok (st2, ps2) →
    processDefs st (ds1 ++ ds2) = .ok (st2, ps1 ++ ps2) := by
  induction ds1 with
  | nil =>
    intro st st1 st2 ps1 ps2 h1 h2
    simp only [processDefs, Except.ok.injEq, Prod.mk.injEq] at h1
    obtain ⟨rfl, rfl⟩ := h1
    simpa using h2
  | cons d ds ih =>
    intro st st1 st2 ps1 ps2 h1 h2
    rw [processDefs] at h1
    cases hpd : parseDefinition st d with
    | error e => simp [hpd] at h1
    | ok r =>
      obtain ⟨sta, psa⟩ := r
      simp only [hpd] at h1
      cases hrest : processDefs sta ds with
      | error e => simp [hrest] at h1
      | ok r2 =>
        obtain ⟨stb, psb⟩ := r2
        simp only [hrest, Except.ok.injEq, Prod.mk.injEq] at h1
        obtain ⟨rfl, rfl⟩ := h1
        rw [List.cons_append, processDefs, hpd]
        simp [ih hrest h2]

/-- C4 counterexample: on the line x = "v" ; y = 2 the begin-multiline
pattern is tried against the whole raw line before any comment stripping
or semicolon splitting, so the line enters multiline capture for tag X and
the statement y = 2 is never processed: the claim's per-statement reading
would yield a pair for Y, but the result mapping is empty and the parser
is left with a pending capture for X. -/
theorem claim4_order_counterexample :
    matchBegin "x = \"v\" ; y = 2".toList = some ("x".toList, "v".toList) ∧
    parseIncarToDict "x = \"v\" ; y = 2".toList = .ok [] ∧
    generateTags "x = \"v\" ; y = 2".toList =
      .ok ({ multiline := "X".toList, content := ["v".toList] }, []) :=
  ⟨rfl, rfl, rfl⟩

/-- C4 (amended): when no capture is pending, the begin-multiline pattern
is tried on the whole raw line first; a line matching it enters multiline
capture with the rest of the line beyond the captured fragment discarded.
Only a line not matching it is continuation-collapsed, comment-stripped
and split on active semicolons, and its statements are then processed
independently, left to right, against the threaded group state. -/
theorem claim4_line_routing :
    (∀ (st : ParserState) (line tag inner : Str),
      matchBegin line = some (tag, inner) →
      parseLine st line =
        .ok (parseMultiline { st with multiline := tagname st.group tag } inner)) ∧
    (∀ (st : ParserState) (line : Str),
      matchBegin line = none →
      parseLine st line = processDefs st (splitInline (stripComment (escNewlineSub line)))) ∧
    (∀ (st : ParserState) (ds1 ds2 : List Str) (st1 st2 : ParserState)
       (ps1 ps2 : List (Str × Str)),
      processDefs st ds1 = .ok (st1, ps1) → processDefs st1 ds2 = .ok (st2, ps2) →
      processDefs st (ds1 ++ ds2) = .ok (st2, ps1 ++ ps2)) ∧
    parseIncarToDict "a = 1 ; b \x7b c = 2 \x7d".toList =
      .ok [("A".toList, "1".toList), ("B/C".toList, "2".toList)] := by
  refine ⟨?_, ?_, ?_, rfl⟩
  · intro st line tag inner h
    rw [parseLine, h]
  · intro st line h
    rw [parseLine, h]
  · intro st ds1 ds2 st1 st2 ps1 ps2 h1 h2
    exact processDefs_append h1 h2

/-- C4 witness: the routing equations applied at concrete inputs. -/
theorem claim4_line_routing_witness :
    parseLine {} "x = \"v\"".toList =
      .ok (parseMultiline { group := [], depth := [], multiline := "X".toList,
                            content := [] } "v".toList) ∧
    parseLine {} "a = 1".toList =
      processDefs {} (splitInline (stripComment (escNewlineSub "a = 1".toList))) ∧
    processDefs {} ["a = 1".toList, "b = 2".toList] =
      .ok ({} , [("A".toList, "1".toList), ("B".toList, "2".toList)]) :=
  ⟨claim4_line_routing.1 {} ("x = \"v\"".toList) ("x".toList) ("v".toList) rfl,
   claim4_line_routing.2.1 {} ("a = 1".toList) rfl,
   claim4_line_routing.2.2.1 {} ["a = 1".toList] ["b = 2".toList] {} {}
     [("A".toList, "1".toList)] [("B".toList, "2".toList)] rfl rfl⟩

/-! Claim C7. -/

theorem pdAux_const : ∀ (fuel : Nat) (st : ParserState) (s : Str) (st' : ParserState)
    (ps : List (Str × Str)), parseDefinitionAux fuel st s = .ok (st', ps) →
    st'.multiline = st.multiline ∧ st'.content = st.content := by
  intro fuel
  induction fuel with
  | zero =>
    intro st s st' ps h
    rw [parseDefinitionAux] at h
    simp only [Except.ok.injEq, Prod.mk.injEq] at h
    rw [← h.1]
    exact ⟨rfl, rfl⟩
  | succ f ih =>
    intro st s st' ps h
    rw [parseDefinitionAux] at h
    cases hO : matchOpen s with
    | some go =>
      obtain ⟨g, io⟩ := go
      cases io with
      | some inner =>
        simp only [hO] at h
        exact ih { st with group := st.group ++ '/' :: g,
                           depth := (g.count '/' + 1) :: st.depth } inner st' ps h
      | none =>
        simp only [hO, Except.ok.injEq, Prod.mk.injEq] at h
        rw [← h.1]
        exact ⟨rfl, rfl⟩
    | none =>
      simp only [hO] at h
      cases hC : matchClose s with
      | some io =>
        cases io with
        | some inner =>
          simp only [hC] at h
          cases hr : parseDefinitionAux f st inner with
          | error e => simp [hr] at h
          | ok r2 =>
            obtain ⟨st2, ps2⟩ := r2
            simp only [hr] at h
            cases hd : st2.depth with
            | nil => simp [hd] at h
            | cons d rest =>
              simp only [hd, Except.ok.injEq, Prod.mk.injEq] at h
              obtain ⟨h1, -⟩ := h
              rw [← h1]
              exact ih _ inner st2 ps2 hr
        | none =>
          simp only [hC] at h
          cases hd : st.depth with
          | nil => simp [hd] at h
          | cons d rest =>
            simp only [hd, Except.ok.injEq, Prod.mk.injEq] at h
            rw [← h.1]
            exact ⟨rfl, rfl⟩
      | none =>
        simp only [hC] at h
        cases hA : matchAssignment s with
        | some tv =>
          obtain ⟨tag, v⟩ := tv
          simp only [hA, Except.ok.injEq, Prod.mk.injEq] at h
          rw [← h.1]
          exact ⟨rfl, rfl⟩
        | none =>
          simp only [hA, Except.ok.injEq, Prod.mk.injEq] at h
          rw [← h.1]
          exact ⟨rfl, rfl⟩

theorem processDefs_const : ∀ (ds : List Str) (st st' : ParserState)
    (ps : List (Str × Str)), processDefs st ds = .ok (st', ps) →
    st'.multiline = st.multiline ∧ st'.content = st.content := by
  intro ds
  induction ds with
  | nil =>
    intro st st' ps h
    simp only [processDefs, Except.ok.injEq, Prod.mk.injEq] at h
    rw [← h.1]
    exact ⟨rfl, rfl⟩
  | cons d rest ih =>
    intro st st' ps h
    rw [processDefs] at h
    cases hpd : parseDefinition st d with
    | error e => simp [hpd] at h
    | ok r =>
      obtain ⟨sta, psa⟩ := r
      simp only [hpd] at h
      cases hrest : processDefs sta rest with
      | error e => simp [hrest] at h
      | ok r2 =>
        obtain ⟨stb, psb⟩ := r2
        simp only [hrest, Except.ok.injEq, Prod.mk.injEq] at h
        obtain ⟨h1, -⟩ := h
        obtain ⟨ha1, ha2⟩ := pdAux_const _ st d sta psa hpd
        obtain ⟨hb1, hb2⟩ := ih sta stb psb hrest
        rw [← h1, hb1, hb2, ha1, ha2]
        exact ⟨rfl, rfl⟩

theorem processLines_append {L1 L2 : List Str} : ∀ {st st1 st2 : ParserState}
    {ps1 ps2 : List (Str × Str)},
    processLines st L1 = .ok (st1, ps1) → processLines st1 L2 = .ok (st2, ps2) →
    processLines st (L1 ++ L2) = .ok (st2, ps1 ++ ps2) := by
  induction L1 with
  | nil =>
    intro st st1 st2 ps1 ps2 h1 h2
    simp only [processLines, Except.ok.injEq, Prod.mk.injEq] at h1
    obtain ⟨rfl, rfl⟩ := h1
    simpa using h2
  | cons l ls ih =>
    intro st st1 st2 ps1 ps2 h1 h2
    rw [processLines] at h1
    cases hpl : routeLine st l with
    | error e => simp [hpl] at h1
    | ok r =>
      obtain ⟨sta, psa⟩ := r
      simp only [hpl] at h1
      cases hrest : processLines sta ls with
      | error e => simp [hrest] at h1
      | ok r2 =>
        obtain ⟨stb, psb⟩ := r2
        simp only [hrest, Except.ok.injEq, Prod.mk.injEq] at h1
        obtain ⟨rfl, rfl⟩ := h1
        rw [List.cons_append, processLines, hpl]
        simp [ih hrest h2]

theorem routeLine_pending {st : ParserState} {l : Str} (hm : st.multiline ≠ []) :
    routeLine st l = .ok (parseMultiline st l) := by
  have hne : st.multiline.isEmpty = false := by
    cases hml : st.multiline with
    | nil => exact absurd hml hm
    | cons a b => rfl
  rw [routeLine, if_neg (by rw [hne]; exact Bool.false_ne_true)]

theorem routeLine_fresh {st : ParserState} {l : Str} (hm : st.multiline = []) :
    routeLine st l = parseLine st l := by
  rw [routeLine, if_pos (by rw [hm]; rfl)]

theorem processLines_pending {L : List Str} : ∀ {st : ParserState},
    st.multiline ≠ [] → (∀ l ∈ L, matchEnd l = none) →
    processLines st L = .ok ({ st with content := st.content ++ L }, []) := by
  induction L with
  | nil =>
    intro st _ _
    simp [processLines]
  | cons l ls ih =>
    intro st hm hL
    rw [processLines, routeLine_pending hm, parseMultiline, hL l (by simp)]
    have hrec := @ih { st with content := st.content ++ [l] } hm
      (fun l2 hl2 => hL l2 (by simp [hl2]))
    simp only [hrec]
    simp

theorem parseLine_entering_pending {st1 st2 : ParserState} {l : Str}
    {ps : List (Str × Str)} (h : parseLine st1 l = .ok (st2, ps))
    (h1 : st1.multiline = []) (h2 : st2.multiline ≠ []) : ps = [] := by
  rw [parseLine] at h
  cases hB : matchBegin l with
  | some ti =>
    obtain ⟨tag, inner⟩ := ti
    simp only [hB] at h
    rw [parseMultiline] at h
    cases hE : matchEnd inner with
    | some w =>
      simp only [hE, Except.ok.injEq, Prod.mk.injEq] at h
      exact absurd (by rw [← h.1]) h2
    | none =>
      simp only [hE, Except.ok.injEq, Prod.mk.injEq] at h
      exact h.2.symm
  | none =>
    simp only [hB] at h
    obtain ⟨hm, -⟩ := processDefs_const _ st1 st2 ps h
    exact absurd (hm.trans h1) h2

/-- C7: when a multiline capture begins on some line and no later line of
the input ends it, the parse succeeds, yields no pair for the pending tag
(the capture emits nothing, and nothing at all is yielded after the
capture begins), and the result mapping is exactly the mapping of the
pairs yielded before the capture began; the raw later lines are merely
accumulated as content. -/
theorem claim7_unterminated_capture_drops_pending :
    ∀ (t : Str) (L1 : List Str) (l : Str) (L2 : List Str) (st1 st2 : ParserState)
      (P1 P2 : List (Str × Str)),
      splitNewlines t = L1 ++ l :: L2 →
      processLines {} L1 = .ok (st1, P1) →
      st1.multiline = [] →
      parseLine st1 l = .ok (st2, P2) →
      st2.multiline ≠ [] →
      (∀ l2 ∈ L2, matchEnd l2 = none) →
      P2 = [] ∧
      generateTags t = .ok ({ st2 with content := st2.content ++ L2 }, P1) ∧
      parseIncarToDict t = .ok (toDict P1) := by
  intro t L1 l L2 st1 st2 P1 P2 hsplit hL1 hm1 hl hm2 hL2
  have hP2 : P2 = [] := parseLine_entering_pending hl hm1 hm2
  subst hP2
  have hstep : processLines st1 (l :: L2) =
      .ok ({ st2 with content := st2.content ++ L2 }, []) := by
    rw [processLines, routeLine_fresh hm1, hl]
    simp only [processLines_pending hm2 hL2]
    simp
  have hall : processLines {} (L1 ++ l :: L2) =
      .ok ({ st2 with content := st2.content ++ L2 }, P1) := by
    have := processLines_append hL1 hstep
    simpa using this
  refine ⟨rfl, ?_, ?_⟩
  · rw [generateTags, hsplit]
    exact hall
  · rw [parseIncarToDict, generateTags, hsplit, hall]
    rfl

/-- C7 witness: a concrete input whose quoted value never closes; the pair
yielded before the capture began is the whole mapping. -/
theorem claim7_unterminated_capture_witness :
    parseIncarToDict "a = 1\nx = \"v\nmore".toList =
      .ok (toDict [("A".toList, "1".toList)]) :=
  (claim7_unterminated_capture_drops_pending "a = 1\nx = \"v\nmore".toList
    ["a = 1".toList] ("x = \"v".toList) ["more".toList]
    {} { multiline := "X".toList, content := ["v".toList] }
    [("A".toList, "1".toList)] []
    rfl rfl rfl rfl (by decide) (by decide)).2.2

/-! Claim C5. -/

/-- Declarative characterization of a position at which the end-multiline
pattern can close the capture: an active closing quote all of whose
earlier quotes are backslash-preceded (so the non_quote star can reach
it).  Nothing is required of the text after the quote. -/
def endsCaptureAt (s : Str) (e : Nat) : Prop :=
  e < s.length ∧ chAt s e = '"' ∧ nonEscapedAt s e = true ∧
  ∀ q, q < e → chAt s q = '"' → 1 ≤ q ∧ chAt s (q-1) = '\\'

theorem bareAt_oob {s : Str} {q : Nat} (h : s.length ≤ q) : bareAt s q = false := by
  have : chAt s q = ' ' := by
    rw [chAt, List.getD_eq_getElem?_getD, List.getElem?_eq_none h]
    rfl
  simp [bareAt, this]

theorem activeQuoteAt_oob {s : Str} {q : Nat} (h : s.length ≤ q) :
    activeQuoteAt s q = false := by
  have : chAt s q = ' ' := by
    rw [chAt, List.getD_eq_getElem?_getD, List.getElem?_eq_none h]
    rfl
  simp [activeQuoteAt, this]

theorem fbAux_some_spec {s : Str} : ∀ (fuel i j : Nat), fbAux s fuel i = some j →
    bareAt s j = true ∧ i ≤ j ∧ ∀ q, i ≤ q → q < j → bareAt s q = false := by
  intro fuel
  induction fuel with
  | zero => intro i j h; rw [fbAux] at h; exact absurd h (by simp)
  | succ f ih =>
    intro i j h
    rw [fbAux] at h
    by_cases hb : bareAt s i = true
    · rw [if_pos hb] at h
      obtain rfl : i = j := by simpa using h
      exact ⟨hb, Nat.le_refl i, fun q h1 h2 => absurd (Nat.lt_of_le_of_lt h1 h2)
        (Nat.lt_irrefl i)⟩
    · rw [if_neg hb] at h
      obtain ⟨hj, hij, hmin⟩ := ih (i+1) j h
      refine ⟨hj, by omega, fun q h1 h2 => ?_⟩
      rcases Nat.eq_or_lt_of_le h1 with rfl | hlt
      · exact Bool.eq_false_iff.mpr hb
      · exact hmin q hlt h2

theorem fbAux_none_spec {s : Str} : ∀ (fuel i : Nat), fbAux s fuel i = none →
    ∀ q, i ≤ q → q < i + fuel → bareAt s q = false := by
  intro fuel
  induction fuel with
  | zero => intro i _ q h1 h2; omega
  | succ f ih =>
    intro i h q h1 h2
    rw [fbAux] at h
    by_cases hb : bareAt s i = true
    · rw [if_pos hb] at h; exact absurd h (by simp)
    · rw [if_neg hb] at h
      rcases Nat.eq_or_lt_of_le h1 with rfl | hlt
      · exact Bool.eq_false_iff.mpr hb
      · exact ih (i+1) h q hlt (by omega)

theorem findBareQuote_none_spec {s : Str} (h : findBareQuote s = none) :
    ∀ q, bareAt s q = false := by
  intro q
  by_cases hq : q < s.length
  · exact fbAux_none_spec s.length 0 h q (Nat.zero_le q) (by omega)
  · exact bareAt_oob (by omega)

theorem laAux_some_spec {s : Str} : ∀ (k j : Nat), laAux s k = some j →
    activeQuoteAt s j = true ∧ j < k := by
  intro k
  induction k with
  | zero => intro j h; rw [laAux] at h; exact absurd h (by simp)
  | succ i ih =>
    intro j h
    rw [laAux] at h
    by_cases ha : activeQuoteAt s i = true
    · rw [if_pos ha] at h
      obtain rfl : i = j := by simpa using h
      exact ⟨ha, Nat.lt_succ_self i⟩
    · rw [if_neg ha] at h
      obtain ⟨hj, hjk⟩ := ih j h
      exact ⟨hj, by omega⟩

theorem laAux_none_spec {s : Str} : ∀ (k : Nat), laAux s k = none →
    ∀ q, q < k → activeQuoteAt s q = false := by
  intro k
  induction k with
  | zero => intro _ q h; omega
  | succ i ih =>
    intro h q hq
    rw [laAux] at h
    by_cases ha : activeQuoteAt s i = true
    · rw [if_pos ha] at h; exact absurd h (by simp)
    · rw [if_neg ha] at h
      rcases Nat.lt_succ_iff_lt_or_eq.mp hq with hlt | rfl
      · exact ih h q hlt
      · exact Bool.eq_false_iff.mpr ha

theorem not_bare_quote {s : Str} {q : Nat} (hb : bareAt s q = false)
    (hq : chAt s q = '"') : 1 ≤ q ∧ chAt s (q-1) = '\\' := by
  rw [bareAt, hq] at hb
  simp only [beq_self_eq_true, Bool.true_and, Bool.or_eq_false_iff] at hb
  obtain ⟨h1, h2⟩ := hb
  have h1' : q ≠ 0 := by simpa using h1
  refine ⟨by omega, ?_⟩
  simpa using h2

theorem matchEnd_some_spec {s w : Str} (h : matchEnd s = some w) :
    ∃ e, endsCaptureAt s e ∧ w = s.take e := by
  rw [matchEnd] at h
  cases hfb : findBareQuote s with
  | some j =>
    simp only [hfb, Option.some.injEq] at h
    obtain rfl : s.take j = w := h
    obtain ⟨hj, -, hmin⟩ := fbAux_some_spec s.length 0 j hfb
    have hquote : chAt s j = '"' := by
      have := Bool.and_elim_left hj
      simpa using this
    have hjl : j < s.length := chAt_lt_length hquote (by decide)
    have hact : nonEscapedAt s j = true := by
      rw [nonEscapedAt, Bool.or_eq_true]
      left
      exact Bool.and_elim_right hj
    exact ⟨j, ⟨hjl, hquote, hact, fun q h1 h2 =>
      not_bare_quote (hmin q (Nat.zero_le q) h1) h2⟩, rfl⟩
  | none =>
    simp only [hfb] at h
    cases hla : lastActiveQuote s with
    | some j =>
      simp only [hla, Option.some.injEq] at h
      obtain rfl : s.take j = w := h
      obtain ⟨hj, hjl⟩ := laAux_some_spec s.length j hla
      have hquote : chAt s j = '"' := by
        have := Bool.and_elim_left hj
        simpa using this
      exact ⟨j, ⟨hjl, hquote, Bool.and_elim_right hj, fun q h1 h2 =>
        not_bare_quote (findBareQuote_none_spec hfb q) h2⟩, rfl⟩
    | none => simp [hla] at h

theorem matchEnd_none_spec {s : Str} (h : matchEnd s = none) :
    ∀ e, ¬ endsCaptureAt s e := by
  intro e he
  obtain ⟨hel, hq, ha, -⟩ := he
  rw [matchEnd] at h
  cases hfb : findBareQuote s with
  | some j => simp [hfb] at h
  | none =>
    simp only [hfb] at h
    cases hla : lastActiveQuote s with
    | some j => simp [hla] at h
    | none =>
      have := laAux_none_spec s.length hla e hel
      rw [activeQuoteAt, hq, ha] at this
      simp at this

/-- C5 counterexample: a fed line ends the capture even when the active
closing quote is followed by non-whitespace text; the text after the quote
is silently discarded, contrary to the claim's requirement that the line
consist of content, quote and only trailing whitespace. -/
theorem claim5_trailing_text_counterexample :
    matchEnd "b\" trailing".toList = some ("b".toList) ∧
    ("b\" trailing".toList.drop 2).any (fun c => !isSpace c) = true ∧
    parseIncarToDict "x = \"a\nb\" trailing\ny = 2".toList =
      .ok [("X".toList, "a\nb".toList), ("Y".toList, "2".toList)] :=
  ⟨rfl, rfl, rfl⟩

/-- C5 (amended): while a capture is pending, a fed line ends the capture
exactly when it contains a reachable active closing quote: an active quote
all of whose earlier quotes are backslash-preceded.  The matched content
stops at the chosen quote and anything after it is discarded, with no
requirement that only whitespace follow.  When the capture ends, the
accumulated fragments plus the final content are joined with newlines,
escape-resolved and yielded under the pending tag; when it does not end,
the entire line is appended verbatim. -/
theorem claim5_end_multiline_characterization :
    ∀ (st : ParserState) (line : Str), st.multiline ≠ [] →
      (((parseMultiline st line).2 ≠ []) ↔ (∃ e, endsCaptureAt line e)) ∧
      (∀ w, matchEnd line = some w →
        (∃ e, endsCaptureAt line e ∧ w = line.take e) ∧
        parseMultiline st line =
          ({ st with multiline := [], content := [] },
           [(st.multiline, removeEscape (joinLines (st.content ++ [w])))])) ∧
      (matchEnd line = none →
        (¬ ∃ e, endsCaptureAt line e) ∧
        parseMultiline st line = ({ st with content := st.content ++ [line] }, [])) := by
  intro st line hm
  refine ⟨?_, ?_, ?_⟩
  · constructor
    · intro hne
      cases hE : matchEnd line with
      | some w =>
        obtain ⟨e, he, -⟩ := matchEnd_some_spec hE
        exact ⟨e, he⟩
      | none =>
        rw [parseMultiline, hE] at hne
        exact absurd rfl hne
    · rintro ⟨e, he⟩
      cases hE : matchEnd line with
      | some w => rw [parseMultiline, hE]; simp
      | none => exact absurd he (matchEnd_none_spec hE e)
  · intro w hE
    exact ⟨matchEnd_some_spec hE, by rw [parseMultiline, hE]⟩
  · intro hE
    refine ⟨?_, by rw [parseMultiline, hE]⟩
    rintro ⟨e, he⟩
    exact matchEnd_none_spec hE e he

/-- C5 witness: the characterization applied to a pending state and the
two kinds of lines. -/
theorem claim5_end_multiline_witness :
    (parseMultiline { multiline := "X".toList, content := ["a".toList] } "b\"".toList =
      ({ multiline := [], content := [] },
       [("X".toList, removeEscape (joinLines (["a".toList] ++ ["b".toList])))])) ∧
    (parseMultiline { multiline := "X".toList, content := ["a".toList] } "b".toList =
      ({ multiline := "X".toList, content := ["a".toList] ++ ["b".toList] }, [])) :=
  ⟨((claim5_end_multiline_characterization
      { multiline := "X".toList, content := ["a".toList] } ("b\"".toList)
      (by decide)).2.1 ("b".toList) rfl).2,
   ((claim5_end_multiline_characterization
      { multiline := "X".toList, content := ["a".toList] } ("b".toList)
      (by decide)).2.2 rfl).2⟩

/-! Claim C8. -/

/-! Claim C8. -/

theorem rpartitionBefore_append_slash (l : Str) : rpartitionBefore (l ++ ['/']) = l := by
  simp [rpartitionBefore, List.dropWhile_cons]

theorem rpartitionBefore_append_other {c : Char} (hc : c ≠ '/') (l : Str) :
    rpartitionBefore (l ++ [c]) = rpartitionBefore l := by
  simp [rpartitionBefore, List.dropWhile_cons, hc]

theorem popSegments_undoes_push :
    ∀ (g group : Str), popSegments (g.count '/' + 1) (group ++ '/' :: g) = group := by
  intro g
  induction g using List.reverseRecOn with
  | nil =>
    intro group
    show popSegments 0 (rpartitionBefore (group ++ ['/'])) = group
    rw [popSegments, rpartitionBefore_append_slash]
  | append_singleton ys c ih =>
    intro group
    by_cases hc : c = '/'
    · subst hc
      have hcount : ('/' :: (ys ++ ['/'])).count '/' = ('/' :: ys).count '/' + 1 := by
        simp [List.count_append]
      have hassoc : group ++ '/' :: (ys ++ ['/']) = (group ++ '/' :: ys) ++ ['/'] := by
        simp
      calc popSegments ((ys ++ ['/']).count '/' + 1) (group ++ '/' :: (ys ++ ['/']))
          = popSegments ((ys.count '/' + 1) + 1) ((group ++ '/' :: ys) ++ ['/']) := by
            rw [hassoc]; simp [List.count_append]
        _ = popSegments (ys.count '/' + 1) (rpartitionBefore ((group ++ '/' :: ys) ++ ['/'])) := by
            rw [popSegments]
        _ = popSegments (ys.count '/' + 1) (group ++ '/' :: ys) := by
            rw [rpartitionBefore_append_slash]
        _ = group := ih group
    · have hassoc : group ++ '/' :: (ys ++ [c]) = (group ++ '/' :: ys) ++ [c] := by
        simp
      calc popSegments ((ys ++ [c]).count '/' + 1) (group ++ '/' :: (ys ++ [c]))
          = popSegments (ys.count '/' + 1) ((group ++ '/' :: ys) ++ [c]) := by
            rw [hassoc]; simp [List.count_append, List.count_singleton, hc]
        _ = popSegments (ys.count '/') (rpartitionBefore ((group ++ '/' :: ys) ++ [c])) := by
            rw [popSegments]
        _ = popSegments (ys.count '/') (rpartitionBefore (group ++ '/' :: ys)) := by
            rw [rpartitionBefore_append_other hc]
        _ = popSegments (ys.count '/' + 1) (group ++ '/' :: ys) := by
            rw [popSegments]
        _ = group := ih group

/-- C8: a group-open whose name contains m slashes pushes m + 1 onto the
depth stack and appends the whole name (m + 1 path segments) to the group
path; the matching close pops exactly the recorded number of segments,
which undoes the push; and parse("a/b \x7b c = v \x7d") yields A/B/C with
any later assignment no longer prefixed. -/
theorem claim8_multisegment_open_close :
    (∀ (g group : Str), popSegments (g.count '/' + 1) (group ++ '/' :: g) = group) ∧
    (∀ (st : ParserState) (s g : Str), matchOpen s = some (g, none) →
      parseDefinition st s =
        .ok ({ st with group := st.group ++ '/' :: g,
                       depth := (g.count '/' + 1) :: st.depth }, [])) ∧
    (∀ (st : ParserState) (s : Str) (d : Nat) (rest : List Nat),
      matchOpen s = none → matchClose s = some none → st.depth = d :: rest →
      parseDefinition st s =
        .ok ({ st with group := popSegments d st.group, depth := rest }, [])) ∧
    parseIncarToDict "a/b \x7b c = v \x7d".toList =
      .ok [("A/B/C".toList, "v".toList)] ∧
    parseIncarToDict "a/b \x7b c = v \x7d\nd = w".toList =
      .ok [("A/B/C".toList, "v".toList), ("D".toList, "w".toList)] := by
  refine ⟨popSegments_undoes_push, ?_, ?_, rfl, rfl⟩
  · intro st s g hO
    rw [pd_push hO]
  · intro st s d rest hO hC hd
    rw [pd_close hO hC]
    simp [hd]

/-- C8 witness: opening a two-segment group pushes 2 and a close pops both
segments, restoring the empty path. -/
theorem claim8_multisegment_witness :
    parseDefinition {} "a/b \x7b".toList =
      .ok ({ group := "/a/b".toList, depth := [2] }, []) ∧
    parseDefinition { group := "/a/b".toList, depth := [2] } "\x7d".toList =
      .ok (({} : ParserState), []) :=
  ⟨claim8_multisegment_open_close.2.1 {} ("a/b \x7b".toList) ("a/b".toList) rfl,
   claim8_multisegment_open_close.2.2.1 { group := "/a/b".toList, depth := [2] }
     ("\x7d".toList) 2 [] rfl rfl rfl⟩

/-! Claim C9. -/

theorem valueAt_ne_nil {s : Str} {q : Nat} {v : Str} (h : valueAt s q = some v) :
    v ≠ [] := by
  rw [valueAt] at h
  split at h
  · exact absurd h (by simp)
  · rename_i hne
    obtain rfl : trimTrail (dotSeg s q) = v := by simpa using h
    intro hv
    rw [hv] at hne
    exact hne rfl

theorem matchAssignment_value_ne_nil {s tag v : Str}
    (h : matchAssignment s = some (tag, v)) : v ≠ [] := by
  simp only [matchAssignment] at h
  split at h
  · exact absurd h (by simp)
  · split at h
    · split at h
      · rename_i v' hv
        simp only [Option.some.injEq, Prod.mk.injEq] at h
        exact h.2 ▸ valueAt_ne_nil hv
      · exact absurd h (by simp)
    · exact absurd h (by simp)

theorem removeEscape_cons_shape (c : Char) (l : Str) :
    ∃ d t, removeEscape (c :: l) = d :: t := by
  by_cases hc : c = '\\'
  · subst hc
    cases l with
    | nil => exact ⟨'\\', [], rfl⟩
    | cons d ds =>
      rw [removeEscape]
      by_cases hd : isReserved d = true
      · rw [if_pos hd]; exact ⟨d, _, rfl⟩
      · rw [if_neg hd]; exact ⟨'\\', _, rfl⟩
  · rw [removeEscape_cons_ne hc]
    exact ⟨c, _, rfl⟩

theorem removeEscape_ne_nil {l : Str} (h : l ≠ []) : removeEscape l ≠ [] := by
  cases l with
  | nil => exact absurd rfl h
  | cons c r =>
    obtain ⟨d, t, hdt⟩ := removeEscape_cons_shape c r
    rw [hdt]
    simp

theorem joinLines_cons_cons (a b : Str) (t : List Str) :
    joinLines (a :: b :: t) = a ++ '\n' :: joinLines (b :: t) := rfl

theorem joinLines_ne_nil {cs : List Str} {x : Str} (h : cs ≠ []) :
    joinLines (cs ++ [x]) ≠ [] := by
  cases cs with
  | nil => exact absurd rfl h
  | cons a r =>
    cases r with
    | nil => rw [List.cons_append, List.nil_append, joinLines_cons_cons]; simp
    | cons b t => rw [List.cons_append, List.cons_append, joinLines_cons_cons]; simp

theorem nonQuoteRun_shape (l : Str) :
    nonQuoteRun l = [] ∨ ∃ c t, nonQuoteRun l = c :: t ∧ c ≠ '"' := by
  rw [nonQuoteRun.eq_def]
  split
  · right; exact ⟨'\\', _, rfl, by decide⟩
  · rename_i c rest hno
    by_cases hc : (c == '"') = true
    · left; rw [if_pos hc]
    · right
      rw [if_neg hc]
      exact ⟨c, _, rfl, by simpa using hc⟩
  · left; rfl

theorem matchEnd_nonQuoteRun_ne_nil {x w : Str}
    (h : matchEnd (nonQuoteRun x) = some w) : w ≠ [] := by
  obtain ⟨e, ⟨hel, hq, -, -⟩, rfl⟩ := matchEnd_some_spec h
  rcases nonQuoteRun_shape x with hsh | ⟨c, t, hsh, hcq⟩
  · rw [hsh] at hel
    simp at hel
  · have he1 : 1 ≤ e := by
      by_contra h0
      obtain rfl : e = 0 := by omega
      rw [hsh] at hq
      exact hcq (by simpa [chAt] using hq)
    rw [hsh]
    cases e with
    | zero => omega
    | succ n => simp [List.take_succ_cons]

theorem matchBegin_inner_shape {s tag inner : Str}
    (h : matchBegin s = some (tag, inner)) :
    ∃ k, inner = nonQuoteRun (s.drop k) := by
  simp only [matchBegin] at h
  split at h
  · exact absurd h (by simp)
  · split at h
    · split at h
      · simp only [Option.some.injEq, Prod.mk.injEq] at h
        exact ⟨_, h.2.symm⟩
      · exact absurd h (by simp)
    · exact absurd h (by simp)

theorem pdAux_values : ∀ (fuel : Nat) (st : ParserState) (s : Str) (st' : ParserState)
    (ps : List (Str × Str)), parseDefinitionAux fuel st s = .ok (st', ps) →
    ∀ p ∈ ps, p.2 ≠ [] := by
  intro fuel
  induction fuel with
  | zero =>
    intro st s st' ps h
    rw [parseDefinitionAux] at h
    simp only [Except.ok.injEq, Prod.mk.injEq] at h
    rw [← h.2]
    simp
  | succ f ih =>
    intro st s st' ps h
    rw [parseDefinitionAux] at h
    cases hO : matchOpen s with
    | some go =>
      obtain ⟨g, io⟩ := go
      cases io with
      | some inner =>
        simp only [hO] at h
        exact ih _ inner st' ps h
      | none =>
        simp only [hO, Except.ok.injEq, Prod.mk.injEq] at h
        rw [← h.2]
        simp
    | none =>
      simp only [hO] at h
      cases hC : matchClose s with
      | some io =>
        cases io with
        | some inner =>
          simp only [hC] at h
          cases hr : parseDefinitionAux f st inner with
          | error e => simp [hr] at h
          | ok r2 =>
            obtain ⟨st2, ps2⟩ := r2
            simp only [hr] at h
            cases hd : st2.depth with
            | nil => simp [hd] at h
            | cons d rest =>
              simp only [hd, Except.ok.injEq, Prod.mk.injEq] at h
              rw [← h.2]
              exact ih _ inner st2 ps2 hr
        | none =>
          simp only [hC] at h
          cases hd : st.depth with
          | nil => simp [hd] at h
          | cons d rest =>
            simp only [hd, Except.ok.injEq, Prod.mk.injEq] at h
            rw [← h.2]
            simp
      | none =>
        simp only [hC] at h
        cases hA : matchAssignment s with
        | some tv =>
          obtain ⟨tag, v⟩ := tv
          simp only [hA, Except.ok.injEq, Prod.mk.injEq] at h
          rw [← h.2]
          intro p hp
          simp only [List.mem_singleton] at hp
          rw [hp]
          exact removeEscape_ne_nil (matchAssignment_value_ne_nil hA)
        | none =>
          simp only [hA, Except.ok.injEq, Prod.mk.injEq] at h
          rw [← h.2]
          simp

theorem processDefs_values : ∀ (ds : List Str) (st st' : ParserState)
    (ps : List (Str × Str)), processDefs st ds = .ok (st', ps) →
    ∀ p ∈ ps, p.2 ≠ [] := by
  intro ds
  induction ds with
  | nil =>
    intro st st' ps h
    simp only [processDefs, Except.ok.injEq, Prod.mk.injEq] at h
    rw [← h.2]
    simp
  | cons d rest ih =>
    intro st st' ps h
    rw [processDefs] at h
    cases hpd : parseDefinition st d with
    | error e => simp [hpd] at h
    | ok r =>
      obtain ⟨sta, psa⟩ := r
      simp only [hpd] at h
      cases hrest : processDefs sta rest with
      | error e => simp [hrest] at h
      | ok r2 =>
        obtain ⟨stb, psb⟩ := r2
        simp only [hrest, Except.ok.injEq, Prod.mk.injEq] at h
        rw [← h.2]
        intro p hp
        rcases List.mem_append.mp hp with hp | hp
        · exact pdAux_values _ st d sta psa hpd p hp
        · exact ih sta stb psb hrest p hp

/-- Invariant: whenever a capture is pending, at least one content
fragment has been accumulated. -/
def contentInv (st : ParserState) : Prop :=
  st.multiline ≠ [] → st.content ≠ []

theorem parseMultiline_values {st st' : ParserState} {l : Str} {ps : List (Str × Str)}
    (hfrag : st.content ≠ [] ∨ (∃ x, l = nonQuoteRun x))
    (h : parseMultiline st l = (st', ps)) :
    contentInv st' ∧ ∀ p ∈ ps, p.2 ≠ [] := by
  rw [parseMultiline] at h
  cases hE : matchEnd l with
  | some w =>
    simp only [hE, Prod.mk.injEq] at h
    constructor
    · rw [← h.1]
      intro hm
      exact absurd rfl hm
    · rw [← h.2]
      intro p hp
      simp only [List.mem_singleton] at hp
      rw [hp]
      rcases hfrag with hc | ⟨x, rfl⟩
      · exact removeEscape_ne_nil (joinLines_ne_nil hc)
      · cases hcc : st.content with
        | nil => exact removeEscape_ne_nil (matchEnd_nonQuoteRun_ne_nil hE)
        | cons a r => exact removeEscape_ne_nil (joinLines_ne_nil (List.cons_ne_nil a r))
  | none =>
    simp only [hE, Prod.mk.injEq] at h
    constructor
    · rw [← h.1]
      intro _
      simp
    · rw [← h.2]
      simp

theorem parseLine_values {st st' : ParserState} {l : Str} {ps : List (Str × Str)}
    (hinv : contentInv st) (h : parseLine st l = .ok (st', ps)) :
    contentInv st' ∧ ∀ p ∈ ps, p.2 ≠ [] := by
  rw [parseLine] at h
  cases hB : matchBegin l with
  | some ti =>
    obtain ⟨tag, inner⟩ := ti
    simp only [hB, Except.ok.injEq] at h
    obtain ⟨k, hk⟩ := matchBegin_inner_shape hB
    exact parseMultiline_values (Or.inr ⟨_, hk⟩) h
  | none =>
    simp only [hB] at h
    obtain ⟨hm, hc⟩ := processDefs_const _ st st' ps h
    refine ⟨?_, processDefs_values _ st st' ps h⟩
    intro hmm
    rw [hc]
    exact hinv (hm ▸ hmm)

theorem processLines_values : ∀ (L : List Str) (st st' : ParserState)
    (ps : List (Str × Str)), contentInv st → processLines st L = .ok (st', ps) →
    ∀ p ∈ ps, p.2 ≠ [] := by
  intro L
  induction L with
  | nil =>
    intro st st' ps _ h
    simp only [processLines, Except.ok.injEq, Prod.mk.injEq] at h
    rw [← h.2]
    simp
  | cons l ls ih =>
    intro st st' ps hinv h
    rw [processLines] at h
    cases hrl : routeLine st l with
    | error e => simp [hrl] at h
    | ok r =>
      obtain ⟨sta, psa⟩ := r
      simp only [hrl] at h
      cases hrest : processLines sta ls with
      | error e => simp [hrest] at h
      | ok r2 =>
        obtain ⟨stb, psb⟩ := r2
        simp only [hrest, Except.ok.injEq, Prod.mk.injEq] at h
        rw [← h.2]
        have hstep : contentInv sta ∧ ∀ p ∈ psa, p.2 ≠ [] := by
          by_cases hm : st.multiline = []
          · rw [routeLine_fresh hm] at hrl
            exact parseLine_values hinv hrl
          · rw [routeLine_pending hm] at hrl
            have := parseMultiline_values (Or.inl (hinv hm))
              (Except.ok.injEq _ _ ▸ hrl : parseMultiline st l = (sta, psa))
            exact this
        intro p hp
        rcases List.mem_append.mp hp with hp | hp
        · exact hstep.2 p hp
        · exact ih sta stb psb hstep.1 hrest p hp

theorem dictInsert_mem : ∀ (m : List (Str × Str)) (p q : Str × Str),
    q ∈ dictInsert m p → (q.1 = p.1 ∧ q.2 = p.2) ∨ q ∈ m := by
  intro m
  induction m with
  | nil =>
    intro p q h
    simp only [dictInsert, List.mem_singleton] at h
    left
    rw [h]
    exact ⟨rfl, rfl⟩
  | cons r rs ih =>
    intro p q h
    rw [dictInsert] at h
    by_cases hr : r.1 = p.1
    · rw [if_pos hr] at h
      rcases List.mem_cons.mp h with rfl | h
      · left; exact ⟨hr, rfl⟩
      · right; exact List.mem_cons_of_mem r h
    · rw [if_neg hr] at h
      rcases List.mem_cons.mp h with rfl | h
      · right; exact List.mem_cons_self q rs
      · rcases ih p q h with hq | hq
        · left; exact hq
        · right; exact List.mem_cons_of_mem r hq

theorem toDict_mem {ps : List (Str × Str)} {q : Str × Str} (h : q ∈ toDict ps) :
    ∃ p ∈ ps, q.1 = p.1 ∧ q.2 = p.2 := by
  have haux : ∀ (l : List (Str × Str)) (acc : List (Str × Str)),
      q ∈ List.foldl dictInsert acc l →
      q ∈ acc ∨ ∃ p ∈ l, q.1 = p.1 ∧ q.2 = p.2 := by
    intro l
    induction l with
    | nil => intro acc h; exact Or.inl h
    | cons r rs ih =>
      intro acc h
      rw [List.foldl_cons] at h
      rcases ih (dictInsert acc r) h with hacc | ⟨p, hp, hq⟩
      · rcases dictInsert_mem acc r q hacc with hq | hq
        · right; exact ⟨r, List.mem_cons_self r rs, hq⟩
        · left; exact hq
      · right; exact ⟨p, List.mem_cons_of_mem r hp, hq⟩
  rcases haux ps [] h with hacc | hp
  · exact absurd hacc (by simp)
  · exact hp

/-- C9: a right-hand side that is empty or all whitespace makes _value
fail, so the statement matches neither the assignment nor any other
pattern and is silently dropped; and no entry of any result mapping ever
carries the empty string as its value. -/
theorem claim9_empty_rhs_dropped :
    matchAssignment "x =".toList = none ∧
    matchOpen "x =".toList = none ∧
    matchClose "x =".toList = none ∧
    matchBegin "x =".toList = none ∧
    parseIncarToDict "x =".toList = .ok [] ∧
    parseIncarToDict "x =   ".toList = .ok [] ∧
    (∀ (t : Str) (m : List (Str × Str)), parseIncarToDict t = .ok m →
      ∀ p ∈ m, p.2 ≠ []) := by
  refine ⟨rfl, rfl, rfl, rfl, rfl, rfl, ?_⟩
  intro t m h p hp
  rw [parseIncarToDict] at h
  cases hg : generateTags t with
  | error e => simp [hg, Except.map] at h
  | ok r =>
    obtain ⟨stf, ps⟩ := r
    simp only [hg, Except.map, Except.ok.injEq] at h
    rw [← h] at hp
    obtain ⟨p0, hp0, -, hval⟩ := toDict_mem hp
    rw [hval]
    exact processLines_values (splitNewlines t) {} stf ps
      (fun hm => absurd rfl hm) hg p0 hp0

/-- C9 witness: the no-empty-value property applied to a concrete parse. -/
theorem claim9_empty_rhs_witness : ("1".toList : Str) ≠ [] :=
  claim9_empty_rhs_dropped.2.2.2.2.2.2 ("x = 1".toList)
    [("X".toList, "1".toList)] rfl ("X".toList, "1".toList) (by decide)

/-! Claim C6. -/

/-- The claim's notion of an upper-case word-or-slash key character:
uppercase letters, digits, underscore and the path separator.  The kra
letter U+0138 fails this test, which is what refutes the claim. -/
def isUpperWordSlash (c : Char) : Bool :=
  c.isUpper || c.isDigit || c == '_' || c == '/'

/-- Modelled from the spec: the claim's upper-case follows Python str
case, which uses the Unicode tables; restricted to the repertoire of
this file, the lowercase letters are the ASCII range and the kra letter
U+0138 (Unicode category Ll), which has no uppercase mapping. -/
def isLowerLetter (c : Char) : Bool :=
  c.isLower || c == 'ĸ'

/-- A character that can appear in a key of the result mapping: a word
or slash character (so in particular no reserved delimiter) that is not
an ASCII lowercase letter.  A non-ASCII lowercase letter without an
uppercase mapping may appear, so this is weaker than isUpperWordSlash. -/
def isKeyChar (c : Char) : Bool :=
  isWordSlash c && !c.isLower

theorem toNat_ofNat_valid {n : Nat} (h : n < 55296) : (Char.ofNat n).toNat = n := by
  have hv : n.isValidChar := Or.inl h
  rw [Char.ofNat, dif_pos hv]
  simp [Char.ofNatAux, Char.toNat, UInt32.toNat]

theorem char_eq_iff_toNat {c d : Char} : c = d ↔ c.toNat = d.toNat :=
  ⟨fun h => h ▸ rfl, fun h => by rw [← Char.ofNat_toNat c, h, Char.ofNat_toNat]⟩

theorem isLower_iff {c : Char} : c.isLower = true ↔ 97 ≤ c.toNat ∧ c.toNat ≤ 122 := by
  simp [Char.isLower, Char.toNat, UInt32.le_def, BitVec.le_def, UInt32.toNat]

theorem isUpper_iff {c : Char} : c.isUpper = true ↔ 65 ≤ c.toNat ∧ c.toNat ≤ 90 := by
  simp [Char.isUpper, Char.toNat, UInt32.le_def, BitVec.le_def, UInt32.toNat]

theorem isDigit_iff {c : Char} : c.isDigit = true ↔ 48 ≤ c.toNat ∧ c.toNat ≤ 57 := by
  simp [Char.isDigit, Char.toNat, UInt32.le_def, BitVec.le_def, UInt32.toNat]

theorem toUpper_toNat_lower {c : Char} (h : 97 ≤ c.toNat ∧ c.toNat ≤ 122) :
    (Char.toUpper c).toNat = c.toNat - 32 := by
  rw [Char.toUpper, if_pos h]
  exact toNat_ofNat_valid (by omega)

theorem toUpper_eq_self {c : Char} (h : ¬(97 ≤ c.toNat ∧ c.toNat ≤ 122)) :
    Char.toUpper c = c := by
  rw [Char.toUpper, if_neg h]

theorem wordSlash_range {c : Char} (h : isWordSlash c = true) :
    (48 ≤ c.toNat ∧ c.toNat ≤ 57) ∨ (65 ≤ c.toNat ∧ c.toNat ≤ 90) ∨
    (97 ≤ c.toNat ∧ c.toNat ≤ 122) ∨ c.toNat = 95 ∨ c.toNat = 47 ∨
    c.toNat = 312 := by
  simp only [isWordSlash, Char.isAlphanum, Char.isAlpha, Bool.or_eq_true,
    beq_iff_eq] at h
  rcases h with ((((hu | hlo) | hd) | he) | hs) | hk
  · exact Or.inr (Or.inl (isUpper_iff.mp hu))
  · exact Or.inr (Or.inr (Or.inl (isLower_iff.mp hlo)))
  · exact Or.inl (isDigit_iff.mp hd)
  · subst he; right; right; right; left; rfl
  · subst hs; right; right; right; right; left; rfl
  · subst hk; right; right; right; right; right; rfl

theorem wordSlash_not_reserved {c : Char} (h : isWordSlash c = true) :
    isReserved c = false := by
  have hrange := wordSlash_range h
  rw [isReserved]
  simp only [Bool.or_eq_false_iff, beq_eq_false_iff_ne]
  repeat' apply And.intro
  all_goals intro he
  all_goals subst he
  all_goals exact absurd hrange (by decide)

theorem wordSlash_toUpper {c : Char} (h : isWordSlash c = true) :
    isKeyChar (Char.toUpper c) = true := by
  by_cases hl : 97 ≤ c.toNat ∧ c.toNat ≤ 122
  · have htn := toUpper_toNat_lower hl
    have hup : (Char.toUpper c).isUpper = true := isUpper_iff.mpr (by omega)
    have hlo : (Char.toUpper c).isLower = false := by
      cases hb : (Char.toUpper c).isLower with
      | false => rfl
      | true => have := isLower_iff.mp hb; omega
    simp [isKeyChar, isWordSlash, Char.isAlphanum, Char.isAlpha, hup, hlo]
  · rw [toUpper_eq_self hl]
    have hlo : c.isLower = false := by
      cases hb : c.isLower with
      | false => rfl
      | true => exact absurd (isLower_iff.mp hb) hl
    simp [isKeyChar, h, hlo]

theorem keyChar_spec {c : Char} (h : isKeyChar c = true) :
    isWordSlash c = true ∧ c.isLower = false ∧ isReserved c = false := by
  rw [isKeyChar, Bool.and_eq_true] at h
  obtain ⟨h1, h2⟩ := h
  exact ⟨h1, by simpa using h2, wordSlash_not_reserved h1⟩

/-- Every character of a key produced by tagname from word-and-slash
material is a key character. -/
theorem tagname_chars {group tag : Str}
    (hg : ∀ c ∈ group, isWordSlash c = true) (ht : ∀ c ∈ tag, isWordSlash c = true) :
    ∀ c ∈ tagname group tag, isKeyChar c = true := by
  intro c hc
  rw [tagname] at hc
  obtain ⟨c', hc', rfl⟩ := List.mem_map.mp hc
  have hsub : c' ∈ group ++ '/' :: tag :=
    (List.dropWhile_sublist _).subset hc'
  have hws : isWordSlash c' = true := by
    rcases List.mem_append.mp hsub with hmem | hmem
    · exact hg c' hmem
    · rcases List.mem_cons.mp hmem with rfl | hmem
      · decide
      · exact ht c' hmem
  exact wordSlash_toUpper hws

theorem mem_takeWhile_wordSlash {s : Str} {c : Char}
    (h : c ∈ s.takeWhile isWordSlash) : isWordSlash c = true :=
  List.mem_takeWhile_imp h

theorem matchOpen_group_chars {s g : Str} {io : Option Str}
    (h : matchOpen s = some (g, io)) : ∀ c ∈ g, isWordSlash c = true := by
  simp only [matchOpen] at h
  split at h
  · exact absurd h (by simp)
  · split at h
    · simp only [Option.some.injEq, Prod.mk.injEq] at h
      intro c hc
      exact mem_takeWhile_wordSlash (h.1 ▸ hc)
    · exact absurd h (by simp)

theorem matchAssignment_tag_chars {s tag v : Str}
    (h : matchAssignment s = some (tag, v)) : ∀ c ∈ tag, isWordSlash c = true := by
  simp only [matchAssignment] at h
  split at h
  · exact absurd h (by simp)
  · split at h
    · split at h
      · simp only [Option.some.injEq, Prod.mk.injEq] at h
        intro c hc
        exact mem_takeWhile_wordSlash (h.1 ▸ hc)
      · exact absurd h (by simp)
    · exact absurd h (by simp)

theorem matchBegin_tag_chars {s tag inner : Str}
    (h : matchBegin s = some (tag, inner)) : ∀ c ∈ tag, isWordSlash c = true := by
  simp only [matchBegin] at h
  split at h
  · exact absurd h (by simp)
  · split at h
    · split at h
      · simp only [Option.some.injEq, Prod.mk.injEq] at h
        intro c hc
        exact mem_takeWhile_wordSlash (h.1 ▸ hc)
      · exact absurd h (by simp)
    · exact absurd h (by simp)

theorem rpartitionBefore_chars {g : Str} (hg : ∀ c ∈ g, isWordSlash c = true) :
    ∀ c ∈ rpartitionBefore g, isWordSlash c = true := by
  intro c hc
  rw [rpartitionBefore] at hc
  rw [List.mem_reverse] at hc
  have h1 : c ∈ g.reverse.dropWhile (fun c => c != '/') :=
    (List.drop_sublist 1 _).subset hc
  have h2 : c ∈ g.reverse := (List.dropWhile_sublist _).subset h1
  exact hg c (List.mem_reverse.mp h2)

theorem popSegments_chars : ∀ (n : Nat) (g : Str),
    (∀ c ∈ g, isWordSlash c = true) → ∀ c ∈ popSegments n g, isWordSlash c = true := by
  intro n
  induction n with
  | zero => intro g hg; exact hg
  | succ m ih => intro g hg; exact ih (rpartitionBefore g) (rpartitionBefore_chars hg)

/-- Group-path charset invariant together with key goodness of the pending
multiline tag. -/
def keyInv (st : ParserState) : Prop :=
  (∀ c ∈ st.group, isWordSlash c = true) ∧
  (∀ c ∈ st.multiline, isKeyChar c = true)

theorem pdAux_keys : ∀ (fuel : Nat) (st : ParserState) (s : Str) (st' : ParserState)
    (ps : List (Str × Str)), (∀ c ∈ st.group, isWordSlash c = true) →
    parseDefinitionAux fuel st s = .ok (st', ps) →
    (∀ c ∈ st'.group, isWordSlash c = true) ∧
    ∀ p ∈ ps, ∀ c ∈ p.1, isKeyChar c = true := by
  intro fuel
  induction fuel with
  | zero =>
    intro st s st' ps hg h
    rw [parseDefinitionAux] at h
    simp only [Except.ok.injEq, Prod.mk.injEq] at h
    rw [← h.1, ← h.2]
    exact ⟨hg, by simp⟩
  | succ f ih =>
    intro st s st' ps hg h
    rw [parseDefinitionAux] at h
    cases hO : matchOpen s with
    | some go =>
      obtain ⟨g, io⟩ := go
      have hpush : ∀ c ∈ st.group ++ '/' :: g, isWordSlash c = true := by
        intro c hc
        rcases List.mem_append.mp hc with hc | hc
        · exact hg c hc
        · rcases List.mem_cons.mp hc with rfl | hc
          · decide
          · exact matchOpen_group_chars hO c hc
      cases io with
      | some inner =>
        simp only [hO] at h
        exact ih _ inner st' ps hpush h
      | none =>
        simp only [hO, Except.ok.injEq, Prod.mk.injEq] at h
        rw [← h.1, ← h.2]
        exact ⟨hpush, by simp⟩
    | none =>
      simp only [hO] at h
      cases hC : matchClose s with
      | some io =>
        cases io with
        | some inner =>
          simp only [hC] at h
          cases hr : parseDefinitionAux f st inner with
          | error e => simp [hr] at h
          | ok r2 =>
            obtain ⟨st2, ps2⟩ := r2
            simp only [hr] at h
            cases hd : st2.depth with
            | nil => simp [hd] at h
            | cons d rest =>
              simp only [hd, Except.ok.injEq, Prod.mk.injEq] at h
              obtain ⟨hrec, hkeys⟩ := ih _ inner st2 ps2 hg hr
              rw [← h.1, ← h.2]
              exact ⟨popSegments_chars d st2.group hrec, hkeys⟩
        | none =>
          simp only [hC] at h
          cases hd : st.depth with
          | nil => simp [hd] at h
          | cons d rest =>
            simp only [hd, Except.ok.injEq, Prod.mk.injEq] at h
            rw [← h.1, ← h.2]
            exact ⟨popSegments_chars d st.group hg, by simp⟩
      | none =>
        simp only [hC] at h
        cases hA : matchAssignment s with
        | some tv =>
          obtain ⟨tag, v⟩ := tv
          simp only [hA, Except.ok.injEq, Prod.mk.injEq] at h
          rw [← h.1, ← h.2]
          refine ⟨hg, ?_⟩
          intro p hp
          simp only [List.mem_singleton] at hp
          rw [hp]
          exact tagname_chars hg (matchAssignment_tag_chars hA)
        | none =>
          simp only [hA, Except.ok.injEq, Prod.mk.injEq] at h
          rw [← h.1, ← h.2]
          exact ⟨hg, by simp⟩

theorem processDefs_keys : ∀ (ds : List Str) (st st' : ParserState)
    (ps : List (Str × Str)), (∀ c ∈ st.group, isWordSlash c = true) →
    processDefs st ds = .ok (st', ps) →
    (∀ c ∈ st'.group, isWordSlash c = true) ∧
    ∀ p ∈ ps, ∀ c ∈ p.1, isKeyChar c = true := by
  intro ds
  induction ds with
  | nil =>
    intro st st' ps hg h
    simp only [processDefs, Except.ok.injEq, Prod.mk.injEq] at h
    rw [← h.1, ← h.2]
    exact ⟨hg, by simp⟩
  | cons d rest ih =>
    intro st st' ps hg h
    rw [processDefs] at h
    cases hpd : parseDefinition st d with
    | error e => simp [hpd] at h
    | ok r =>
      obtain ⟨sta, psa⟩ := r
      simp only [hpd] at h
      cases hrest : processDefs sta rest with
      | error e => simp [hrest] at h
      | ok r2 =>
        obtain ⟨stb, psb⟩ := r2
        simp only [hrest, Except.ok.injEq, Prod.mk.injEq] at h
        obtain ⟨ha, hka⟩ := pdAux_keys _ st d sta psa hg hpd
        obtain ⟨hb, hkb⟩ := ih sta stb psb ha hrest
        rw [← h.1, ← h.2]
        refine ⟨hb, ?_⟩
        intro p hp
        rcases List.mem_append.mp hp with hp | hp
        · exact hka p hp
        · exact hkb p hp

theorem parseMultiline_keys {st st' : ParserState} {l : Str} {ps : List (Str × Str)}
    (hinv : keyInv st) (h : parseMultiline st l = (st', ps)) :
    keyInv st' ∧ ∀ p ∈ ps, ∀ c ∈ p.1, isKeyChar c = true := by
  rw [parseMultiline] at h
  cases hE : matchEnd l with
  | some w =>
    simp only [hE, Prod.mk.injEq] at h
    refine ⟨?_, ?_⟩
    · rw [← h.1]
      exact ⟨hinv.1, by simp⟩
    · rw [← h.2]
      intro p hp
      simp only [List.mem_singleton] at hp
      rw [hp]
      exact hinv.2
  | none =>
    simp only [hE, Prod.mk.injEq] at h
    refine ⟨?_, ?_⟩
    · rw [← h.1]
      exact ⟨hinv.1, hinv.2⟩
    · rw [← h.2]
      simp

theorem parseLine_keys {st st' : ParserState} {l : Str} {ps : List (Str × Str)}
    (hinv : keyInv st) (h : parseLine st l = .ok (st', ps)) :
    keyInv st' ∧ ∀ p ∈ ps, ∀ c ∈ p.1, isKeyChar c = true := by
  rw [parseLine] at h
  cases hB : matchBegin l with
  | some ti =>
    obtain ⟨tag, inner⟩ := ti
    simp only [hB, Except.ok.injEq] at h
    have hst1 : keyInv { st with multiline := tagname st.group tag } :=
      ⟨hinv.1, tagname_chars hinv.1 (matchBegin_tag_chars hB)⟩
    exact parseMultiline_keys hst1 h
  | none =>
    simp only [hB] at h
    obtain ⟨hgr, hkeys⟩ := processDefs_keys _ st st' ps hinv.1 h
    obtain ⟨hm, -⟩ := processDefs_const _ st st' ps h
    exact ⟨⟨hgr, hm ▸ hinv.2⟩, hkeys⟩

theorem processLines_keys : ∀ (L : List Str) (st st' : ParserState)
    (ps : List (Str × Str)), keyInv st → processLines st L = .ok (st', ps) →
    ∀ p ∈ ps, ∀ c ∈ p.1, isKeyChar c = true := by
  intro L
  induction L with
  | nil =>
    intro st st' ps _ h
    simp only [processLines, Except.ok.injEq, Prod.mk.injEq] at h
    rw [← h.2]
    simp
  | cons l ls ih =>
    intro st st' ps hinv h
    rw [processLines] at h
    cases hrl : routeLine st l with
    | error e => simp [hrl] at h
    | ok r =>
      obtain ⟨sta, psa⟩ := r
      simp only [hrl] at h
      cases hrest : processLines sta ls with
      | error e => simp [hrest] at h
      | ok r2 =>
        obtain ⟨stb, psb⟩ := r2
        simp only [hrest, Except.ok.injEq, Prod.mk.injEq] at h
        rw [← h.2]
        have hstep : keyInv sta ∧ ∀ p ∈ psa, ∀ c ∈ p.1, isKeyChar c = true := by
          by_cases hm : st.multiline = []
          · rw [routeLine_fresh hm] at hrl
            exact parseLine_keys hinv hrl
          · rw [routeLine_pending hm] at hrl
            exact parseMultiline_keys hinv
              (Except.ok.injEq _ _ ▸ hrl : parseMultiline st l = (sta, psa))
        intro p hp
        rcases List.mem_append.mp hp with hp | hp
        · exact hstep.2 p hp
        · exact ih sta stb psb hstep.1 hrest p hp

/-- C6 counterexample: the source compiles its patterns without
re.ASCII, so \w matches the kra letter U+0138, a Unicode lowercase
letter with no uppercase mapping, which str.upper leaves unchanged.
Parsing that letter assigned the value 1 therefore yields a mapping
whose only key is that lowercase letter: the key is a word character
but it is not upper-case, refuting the claim's universal. -/
theorem claim6_unicode_lowercase_counterexample :
    parseIncarToDict "ĸ = 1".toList = .ok [("ĸ".toList, "1".toList)] ∧
    isLowerLetter 'ĸ' = true ∧
    Char.toUpper 'ĸ' = 'ĸ' ∧
    isUpperWordSlash 'ĸ' = false :=
  ⟨rfl, rfl, rfl, rfl⟩

/-- C6 (amended): every key of the mapping returned by
parse_incar_to_dict consists only of word characters and slashes — so in
particular no reserved delimiter other than the slash appears in a key —
and contains no ASCII lowercase letter, every character with an
uppercase mapping in the modelled repertoire having been uppercased.
Keys need not be upper-case outright: a lowercase word character without
an uppercase mapping survives str.upper unchanged. -/
theorem claim6_keys_word_slash_no_ascii_lower :
    ∀ (t : Str) (m : List (Str × Str)), parseIncarToDict t = .ok m →
      ∀ p ∈ m, ∀ c ∈ p.1,
        isWordSlash c = true ∧ c.isLower = false ∧ isReserved c = false := by
  intro t m h p hp c hc
  rw [parseIncarToDict] at h
  cases hg : generateTags t with
  | error e => simp [hg, Except.map] at h
  | ok r =>
    obtain ⟨stf, ps⟩ := r
    simp only [hg, Except.map, Except.ok.injEq] at h
    rw [← h] at hp
    obtain ⟨p0, hp0, hkey, -⟩ := toDict_mem hp
    have hgood : isKeyChar c = true :=
      processLines_keys (splitNewlines t) {} stf ps
        ⟨by simp, by simp⟩ hg p0 hp0 c (hkey ▸ hc)
    exact keyChar_spec hgood

/-- C6 witness: the amended key property applied to the concrete parse
whose key is the lowercase letter without an uppercase mapping. -/
theorem claim6_keys_amended_witness :
    isWordSlash 'ĸ' = true ∧ 'ĸ'.isLower = false ∧ isReserved 'ĸ' = false :=
  claim6_keys_word_slash_no_ascii_lower ("ĸ = 1".toList)
    [("ĸ".toList, "1".toList)] rfl ("ĸ".toList, "1".toList) (by decide)
    'ĸ' (by decide)

/-! Claim C10. -/

/-- C10: an assignment tag may contain a slash with no group open.  The
statement "a/b = 1" is not a group-open, parses to the key A/B, and the
final parser state shows no group was ever opened (empty group path and
empty depth stack). -/
theorem claim10_slash_tag_without_group :
    matchOpen "a/b = 1".toList = none ∧
    parseIncarToDict "a/b = 1".toList = .ok [("A/B".toList, "1".toList)] ∧
    generateTags "a/b = 1".toList =
      .ok (({} : ParserState), [("A/B".toList, "1".toList)]) :=
  ⟨rfl, rfl, rfl⟩

end Incar
